import Mathlib

/-!
Verification of the training-orchestration script `dist_model_recnet.py`
(neural amp/distortion modelling).  The script's core pieces are embedded
shallowly: the chunked inference procedure `only_proc`, the TBPTT training
epoch `train_epoch` (mini-batching, inner-loop slicing, loss aggregation),
the best-checkpoint validation bookkeeping, the resume/epoch-range logic
and the final test-evaluation WAV writes.  Machine integers are modelled
as `Nat` (Python ints are unbounded; the float divisions `L / chunk` and
`n / bs` are exact for all realistic sizes, so they are modelled with
`Nat` floor division / explicit ceilings).  Python `NameError`s arising
from loop variables that were never bound are modelled with `Except`.
-/

set_option autoImplicit false

namespace DistModelRecnet

/-- Ceiling division on `Nat`, modelling Python `math.ceil(a / b)` for
nonnegative `a` and positive `b`. -/
def ceilDiv (a b : Nat) : Nat := (a + b - 1) / b

/-- One slice-assignment `output[destLo:destHi] = nnet(input_data[srcLo:srcHi])`
performed by `only_proc` (source lines 124 and 128), recorded by its
destination and source index ranges along the time axis. -/
structure Write where
  destLo : Nat
  destHi : Nat
  srcLo : Nat
  srcHi : Nat
deriving DecidableEq

/-- The full-chunk iteration of `only_proc` (source line 124):
`output[l*chunk:(l+1)*chunk] = nnet(input_data[l*chunk:(l+1)*chunk])`. -/
def fullChunkWrite (chunk l : Nat) : Write :=
  ⟨l * chunk, (l + 1) * chunk, l * chunk, (l + 1) * chunk⟩

/-- Embedding of `only_proc` (source lines 120-131) as the sequence of
slice-assignments it performs on the length-`L` output tensor.
`for l in range(int(L / chunk))` performs the full-chunk writes; if
`L / chunk` is not an integer the remainder branch executes
`output[(l+1)*args.val_chunk:-1] = nnet(input_data[(l+1)*chunk:-1])`
(source line 128), where `l` is the last value of the loop variable,
`args.val_chunk` is the global validation chunk size, and the Python
slice end `-1` denotes index `L - 1`.  When the loop body never ran,
`l` is unbound and the branch raises a `NameError`. -/
def only_proc (L chunk valChunk : Nat) : Except String (List Write) :=
  let nFull := L / chunk
  let full := (List.range nFull).map (fullChunkWrite chunk)
  if L % chunk = 0 then Except.ok full
  else if nFull = 0 then Except.error "NameError: name l is not defined"
  else Except.ok (full ++ [⟨nFull * valChunk, L - 1, nFull * chunk, L - 1⟩])

/-- Whether the slice-assignment `w` writes output index `i`. -/
def writeCoversB (w : Write) (i : Nat) : Bool :=
  decide (w.destLo ≤ i) && decide (i < w.destHi)

/-- Whether any slice-assignment in `ws` writes output index `i`. -/
def writtenB (ws : List Write) (i : Nat) : Bool :=
  ws.any (fun w => writeCoversB w i)

/-- Claim C1 (code bug): at the spec scenario `L = 250000`,
`chunk = val_chunk = 100000`, `only_proc` performs the two full-chunk
writes and then a remainder write of only `49999` samples
(`output[200000:249999]`), so the final time index `249999` is never
written, contradicting the claim that every time index is written. -/
theorem only_proc_finalIndexUnwritten :
    only_proc 250000 100000 100000 =
      Except.ok [⟨0, 100000, 0, 100000⟩, ⟨100000, 200000, 100000, 200000⟩,
        ⟨200000, 249999, 200000, 249999⟩] ∧
    writtenB [⟨0, 100000, 0, 100000⟩, ⟨100000, 200000, 100000, 200000⟩,
        ⟨200000, 249999, 200000, 249999⟩] 249999 = false := by
  exact ⟨rfl, rfl⟩

/-- Claim C9: whenever the chunk count is positive and the length is not
a multiple of the chunk, the remainder branch of `only_proc` writes the
destination range starting at `(L / chunk) * valChunk` (the global
validation chunk size, not the `chunk` argument) and ending at `L - 1`
exclusive; consequently the remainder write never covers the final time
index `L - 1`, and its destination start is the intended
`(L / chunk) * chunk` iff `valChunk = chunk`. -/
theorem only_proc_remainder_placement (L chunk valChunk : Nat)
    (hrem : L % chunk ≠ 0) (hfull : 0 < L / chunk) :
    only_proc L chunk valChunk =
      Except.ok ((List.range (L / chunk)).map (fullChunkWrite chunk) ++
        [⟨(L / chunk) * valChunk, L - 1, (L / chunk) * chunk, L - 1⟩]) ∧
    writeCoversB ⟨(L / chunk) * valChunk, L - 1, (L / chunk) * chunk, L - 1⟩ (L - 1) = false ∧
    ((L / chunk) * valChunk = (L / chunk) * chunk ↔ valChunk = chunk) := by
  refine ⟨?_, ?_, ?_⟩
  · simp only [only_proc, hrem, if_false, Nat.pos_iff_ne_zero.mp hfull, ite_false]
  · simp [writeCoversB]
  · constructor
    · intro h
      exact Nat.eq_of_mul_eq_mul_left hfull h
    · intro h
      rw [h]

/-- Witness for C9 at `L = 5`, `chunk = 2`, `valChunk = 3`. -/
theorem only_proc_remainder_placement_witness :
    5 % 2 ≠ 0 ∧ 0 < 5 / 2 ∧
    (only_proc 5 2 3 =
      Except.ok ((List.range (5 / 2)).map (fullChunkWrite 2) ++
        [⟨(5 / 2) * 3, 5 - 1, (5 / 2) * 2, 5 - 1⟩]) ∧
    writeCoversB ⟨(5 / 2) * 3, 5 - 1, (5 / 2) * 2, 5 - 1⟩ (5 - 1) = false ∧
    ((5 / 2) * 3 = (5 / 2) * 2 ↔ 3 = 2)) :=
  ⟨by decide, by decide, only_proc_remainder_placement 5 2 3 (by decide) (by decide)⟩

/-- Claim C10: on any input whose nonzero time length is strictly smaller
than the chunk argument, the full-chunk loop of `only_proc` runs zero
times, the loop variable `l` is never bound, and the remainder branch
raises a `NameError` instead of returning a result. -/
theorem only_proc_short_input_error (L chunk valChunk : Nat)
    (hpos : 0 < L) (hlt : L < chunk) :
    only_proc L chunk valChunk = Except.error "NameError: name l is not defined" := by
  have hdiv : L / chunk = 0 := Nat.div_eq_of_lt hlt
  have hmod : L % chunk = L := Nat.mod_eq_of_lt hlt
  simp [only_proc, hdiv, hmod, Nat.pos_iff_ne_zero.mp hpos]

/-- Witness for C10 at `L = 3`, `chunk = 5`. -/
theorem only_proc_short_input_error_witness :
    0 < 3 ∧ 3 < 5 ∧
    only_proc 3 5 7 = Except.error "NameError: name l is not defined" :=
  ⟨by decide, by decide, only_proc_short_input_error 3 5 7 (by decide) (by decide)⟩

/-- The mini-batch index runs of `train_epoch` (source lines 83-86):
batch `i` is `shuffle[i*bs:(i+1)*bs]` where `shuffle` is the permuted
list of segment indices, and the loop runs
`math.ceil(len(shuffle) / bs)` times. -/
def batches (perm : List Nat) (bs : Nat) : List (List Nat) :=
  (List.range (ceilDiv perm.length bs)).map (fun i => (perm.drop (i * bs)).take bs)

theorem ceilDiv_eq (n bs : Nat) (hbs : 0 < bs) :
    ceilDiv n bs = if n % bs = 0 then n / bs else n / bs + 1 := by
  have hmod := Nat.div_add_mod n bs
  have hlt : n % bs < bs := Nat.mod_lt n hbs
  rcases Nat.eq_zero_or_pos (n % bs) with h0 | hpos
  · have hn : n + bs - 1 = bs * (n / bs) + (bs - 1) := by omega
    have h1 : (bs - 1) / bs = 0 := Nat.div_eq_of_lt (by omega)
    rw [if_pos h0]
    simp only [ceilDiv]
    rw [hn, Nat.mul_add_div hbs, h1, Nat.add_zero]
  · have hsucc : bs * (n / bs + 1) = bs * (n / bs) + bs := Nat.mul_succ bs (n / bs)
    have hn : n + bs - 1 = bs * (n / bs + 1) + (n % bs - 1) := by omega
    have h1 : (n % bs - 1) / bs = 0 := Nat.div_eq_of_lt (by omega)
    rw [if_neg (Nat.pos_iff_ne_zero.mp hpos)]
    simp only [ceilDiv]
    rw [hn, Nat.mul_add_div hbs, h1, Nat.add_zero]

theorem le_ceilDiv_mul (n bs : Nat) (hbs : 0 < bs) : n ≤ ceilDiv n bs * bs := by
  have hmod := Nat.div_add_mod n bs
  have hlt : n % bs < bs := Nat.mod_lt n hbs
  rw [ceilDiv_eq n bs hbs]
  rcases Nat.eq_zero_or_pos (n % bs) with h0 | hpos
  · rw [if_pos h0, Nat.mul_comm]
    omega
  · rw [if_neg (Nat.pos_iff_ne_zero.mp hpos), Nat.add_mul, Nat.one_mul, Nat.mul_comm]
    omega

theorem flatten_chunks {α : Type} (bs : Nat) :
    ∀ (k : Nat) (l : List α), l.length ≤ k * bs →
      ((List.range k).map (fun i => (l.drop (i * bs)).take bs)).flatten = l := by
  intro k
  induction k with
  | zero =>
    intro l hl
    have hz : l.length = 0 := by simpa using hl
    have hnil : l = [] := List.eq_nil_of_length_eq_zero hz
    simp [hnil]
  | succ k ih =>
    intro l hl
    rw [List.range_succ_eq_map, List.map_cons, List.map_map]
    have hmapeq : (List.range k).map ((fun i => (l.drop (i * bs)).take bs) ∘ Nat.succ) =
        (List.range k).map (fun i => ((l.drop bs).drop (i * bs)).take bs) := by
      apply List.map_congr_left
      intro i _
      simp only [Function.comp_apply]
      rw [List.drop_drop, Nat.succ_mul, Nat.add_comm (i * bs) bs]
    have hlen : (l.drop bs).length ≤ k * bs := by
      rw [List.length_drop]
      have hkb : (k + 1) * bs = k * bs + bs := by
        rw [Nat.add_mul, Nat.one_mul]
      omega
    rw [hmapeq]
    simp only [List.flatten_cons]
    rw [ih (l.drop bs) hlen]
    simp [List.take_append_drop]

/-- Claim C2: with a positive batch size and a nonempty training subset of
`n = perm.length` segments, `train_epoch` processes exactly
`ceil(n / bs)` mini-batches, the batches are consecutive runs of the
permuted indices (their concatenation is the whole permutation), batch
`i` has `min bs (n - i*bs)` segments, and the last batch has `n % bs`
segments (or `bs` when `bs` divides `n`). -/
theorem train_epoch_batches (perm : List Nat) (bs : Nat)
    (hbs : 0 < bs) (hn : 0 < perm.length) :
    (batches perm bs).length = ceilDiv perm.length bs ∧
    (batches perm bs).flatten = perm ∧
    (∀ i, ∀ h : i < (batches perm bs).length,
      ((batches perm bs).get ⟨i, h⟩).length = min bs (perm.length - i * bs)) ∧
    ∀ h : ceilDiv perm.length bs - 1 < (batches perm bs).length,
      ((batches perm bs).get ⟨ceilDiv perm.length bs - 1, h⟩).length =
        if perm.length % bs = 0 then bs else perm.length % bs := by
  have hlen : (batches perm bs).length = ceilDiv perm.length bs := by
    simp [batches]
  have hget : ∀ i, ∀ h : i < (batches perm bs).length,
      ((batches perm bs).get ⟨i, h⟩).length = min bs (perm.length - i * bs) := by
    intro i h
    simp [batches]
  refine ⟨hlen, flatten_chunks bs _ perm (le_ceilDiv_mul perm.length bs hbs), hget, ?_⟩
  intro h
  rw [hget _ h]
  have hmod := Nat.div_add_mod perm.length bs
  have hlt : perm.length % bs < bs := Nat.mod_lt perm.length hbs
  have hB := ceilDiv_eq perm.length bs hbs
  rcases Nat.eq_zero_or_pos (perm.length % bs) with h0 | hpos
  · rw [if_pos h0] at hB ⊢
    have hq : 0 < perm.length / bs := by
      rcases Nat.eq_zero_or_pos (perm.length / bs) with hq0 | hq
      · rw [hq0, Nat.mul_zero] at hmod
        omega
      · exact hq
    rw [hB]
    have hsub : (perm.length / bs - 1) * bs = bs * (perm.length / bs) - bs := by
      rw [Nat.sub_mul, Nat.one_mul, Nat.mul_comm]
    rw [hsub]
    have hbsle : bs ≤ bs * (perm.length / bs) := Nat.le_mul_of_pos_right bs hq
    have hfin : perm.length - (bs * (perm.length / bs) - bs) = bs := by omega
    rw [hfin, Nat.min_self]
  · rw [if_neg (Nat.pos_iff_ne_zero.mp hpos)] at hB ⊢
    rw [hB, Nat.add_sub_cancel]
    have hfin : perm.length - perm.length / bs * bs = perm.length % bs := by
      rw [Nat.mul_comm]
      omega
    rw [hfin, Nat.min_eq_right (Nat.le_of_lt hlt)]

/-- Witness for C2 at the spec scenario: 10 segments, batch size 4. -/
theorem train_epoch_batches_witness :
    0 < 4 ∧ 0 < ([0, 1, 2, 3, 4, 5, 6, 7, 8, 9] : List Nat).length ∧
    ((batches [0, 1, 2, 3, 4, 5, 6, 7, 8, 9] 4).length =
        ceilDiv ([0, 1, 2, 3, 4, 5, 6, 7, 8, 9] : List Nat).length 4 ∧
      (batches [0, 1, 2, 3, 4, 5, 6, 7, 8, 9] 4).flatten = [0, 1, 2, 3, 4, 5, 6, 7, 8, 9] ∧
      (∀ i, ∀ h : i < (batches [0, 1, 2, 3, 4, 5, 6, 7, 8, 9] 4).length,
        ((batches [0, 1, 2, 3, 4, 5, 6, 7, 8, 9] 4).get ⟨i, h⟩).length =
          min 4 (([0, 1, 2, 3, 4, 5, 6, 7, 8, 9] : List Nat).length - i * 4)) ∧
      ∀ h : ceilDiv ([0, 1, 2, 3, 4, 5, 6, 7, 8, 9] : List Nat).length 4 - 1 <
          (batches [0, 1, 2, 3, 4, 5, 6, 7, 8, 9] 4).length,
        ((batches [0, 1, 2, 3, 4, 5, 6, 7, 8, 9] 4).get
            ⟨ceilDiv ([0, 1, 2, 3, 4, 5, 6, 7, 8, 9] : List Nat).length 4 - 1, h⟩).length =
          if ([0, 1, 2, 3, 4, 5, 6, 7, 8, 9] : List Nat).length % 4 = 0 then 4
          else ([0, 1, 2, 3, 4, 5, 6, 7, 8, 9] : List Nat).length % 4) :=
  ⟨by decide, by decide, train_epoch_batches [0, 1, 2, 3, 4, 5, 6, 7, 8, 9] 4
    (by decide) (by decide)⟩

/-- Number of TBPTT inner-loop iterations per mini-batch (source line 96):
`math.ceil((input_batch.shape[0] - init_len) / up_fr)`, where
`input_batch.shape[0] = T` is the (common) segment time length.  Python
truncated negative values of `T - init_len` yield zero iterations, which
`Nat` subtraction models exactly. -/
def innerStepCount (T initLen upFr : Nat) : Nat := ceilDiv (T - initLen) upFr

/-- The scalar batch-loss accumulator of the TBPTT inner loop (source
lines 94-111): `batch_loss` starts at `0` and each iteration `k` adds
`loss.item()`, abstracted here as `lossVal k`. -/
def batchLossSum (lossVal : Nat → ℚ) (K : Nat) : ℚ :=
  (List.range K).foldl (fun acc k => acc + lossVal k) 0

/-- Embedding of the loss aggregation of `train_epoch` (source lines
77-117).  `n` is the segment count, `bs` the batch size, `T` the segment
time length, `lossVal b k` the scalar loss produced at inner step `k` of
batch `b` (the network, optimizer and data are abstracted into this
function; the aggregation arithmetic is what is embedded).  Each batch
adds `batch_loss / (k + 1)` to `epoch_loss`, where `k` is the final value
of the inner loop variable, and the function returns
`epoch_loss / (batch_i + 1)` with `batch_i` the final value of the batch
loop variable; if either loop body never ran, the corresponding variable
is unbound and Python raises a `NameError`. -/
def train_epoch (n bs T initLen upFr : Nat) (lossVal : Nat → Nat → ℚ) : Except String ℚ :=
  let B := ceilDiv n bs
  let K := innerStepCount T initLen upFr
  if B = 0 then Except.error "NameError: name batch_i is not defined"
  else if K = 0 then Except.error "NameError: name k is not defined"
  else Except.ok
    (((List.range B).foldl (fun acc b => acc + batchLossSum (lossVal b) K / (K : ℚ)) 0) / (B : ℚ))

theorem foldl_add_eq_sum (f : Nat → ℚ) :
    ∀ K : Nat, (List.range K).foldl (fun acc k => acc + f k) 0 = ∑ k ∈ Finset.range K, f k := by
  intro K
  induction K with
  | zero => simp
  | succ K ih =>
    rw [List.range_succ, List.foldl_append, ih, Finset.sum_range_succ, List.foldl_cons,
      List.foldl_nil]

/-- Claim C3: whenever both loops run (positive batch count and at least
one inner step), `train_epoch` returns the sum over batches of
(sum of the batch's inner-step losses divided by the number of inner
steps), divided by the number of mini-batches: the mean of the per-batch
mean losses. -/
theorem train_epoch_loss_mean (n bs T initLen upFr : Nat) (lossVal : Nat → Nat → ℚ)
    (hB : 0 < ceilDiv n bs) (hK : 0 < innerStepCount T initLen upFr) :
    train_epoch n bs T initLen upFr lossVal =
      Except.ok ((∑ b ∈ Finset.range (ceilDiv n bs),
        (∑ k ∈ Finset.range (innerStepCount T initLen upFr), lossVal b k) /
          ((innerStepCount T initLen upFr : ℚ))) / ((ceilDiv n bs : ℚ))) := by
  have h1 : (List.range (ceilDiv n bs)).foldl
      (fun acc b => acc + batchLossSum (lossVal b) (innerStepCount T initLen upFr) /
        ((innerStepCount T initLen upFr : ℚ))) 0 =
      ∑ b ∈ Finset.range (ceilDiv n bs),
        batchLossSum (lossVal b) (innerStepCount T initLen upFr) /
          ((innerStepCount T initLen upFr : ℚ)) :=
    foldl_add_eq_sum _ (ceilDiv n bs)
  have h2 : ∀ b : Nat, batchLossSum (lossVal b) (innerStepCount T initLen upFr) =
      ∑ k ∈ Finset.range (innerStepCount T initLen upFr), lossVal b k := by
    intro b
    exact foldl_add_eq_sum (lossVal b) (innerStepCount T initLen upFr)
  simp only [train_epoch, Nat.pos_iff_ne_zero.mp hB, Nat.pos_iff_ne_zero.mp hK,
    ite_false, if_false, h1]
  refine congrArg Except.ok (congrArg (fun x => x / ((ceilDiv n bs : ℚ))) ?_)
  refine Finset.sum_congr rfl ?_
  intro b _
  rw [h2 b]

/-- Witness for C3 at the spec scenario: 10 segments, batch size 4
(3 batches), `T = 1200`, `init_len = 200`, `up_fr = 1000` (1 inner step),
with inner-step losses `lossVal b k = b`. -/
theorem train_epoch_loss_mean_witness :
    0 < ceilDiv 10 4 ∧ 0 < innerStepCount 1200 200 1000 ∧
    train_epoch 10 4 1200 200 1000 (fun b _ => (b : ℚ)) =
      Except.ok ((∑ b ∈ Finset.range (ceilDiv 10 4),
        (∑ _k ∈ Finset.range (innerStepCount 1200 200 1000), ((b : ℚ))) /
          ((innerStepCount 1200 200 1000 : ℚ))) / ((ceilDiv 10 4 : ℚ))) :=
  ⟨by decide, by decide,
    train_epoch_loss_mean 10 4 1200 200 1000 (fun b _ => (b : ℚ)) (by decide) (by decide)⟩

/-- One TBPTT inner-loop iteration of `train_epoch`, recorded by the time
ranges of its network-output slice (source line 98) and its target slice
(source line 101). -/
structure InnerStep where
  outLo : Nat
  outHi : Nat
  tgtLo : Nat
  tgtHi : Nat
deriving DecidableEq

/-- Embedding of the slice bookkeeping of the TBPTT inner loop of
`train_epoch` (source lines 92-111).  At iteration `k` the start index is
`start_i = initLen + k * argsUpFr`, because the advance at line 110 is
`start_i += args.up_fr` (the global), while the loop count at line 96 uses
the `up_fr` parameter.  The forward slice at line 98 is
`input_batch[start_i : start_i + up_fr]` and the target slice at line 101
is `target_batch[start_i : start_i + args.up_fr]`; Python slices clamp
their endpoints at the time length `T`. -/
def innerSlices (T initLen upFr argsUpFr : Nat) : List InnerStep :=
  (List.range (innerStepCount T initLen upFr)).map (fun k =>
    ⟨min (initLen + k * argsUpFr) T, min (initLen + k * argsUpFr + upFr) T,
     min (initLen + k * argsUpFr) T, min (initLen + k * argsUpFr + argsUpFr) T⟩)

/-- The start-index schedule asserted by claim C4: iteration `i` of the
inner loop starts at `initLen + i * upFr`, i.e. the advance uses the
`up_fr` parameter. -/
def advanceByParamUpFr (T initLen upFr argsUpFr : Nat) : Prop :=
  ∀ i, ∀ h : i < (innerSlices T initLen upFr argsUpFr).length,
    ((innerSlices T initLen upFr argsUpFr).get ⟨i, h⟩).outLo = min (initLen + i * upFr) T

theorem ceilDiv_eq_one (d u : Nat) (hd : 0 < d) (hdu : d ≤ u) : ceilDiv d u = 1 := by
  have hu : 0 < u := Nat.lt_of_lt_of_le hd hdu
  rw [ceilDiv_eq d u hu]
  rcases Nat.lt_or_ge d u with hlt | hge
  · rw [if_neg (by rw [Nat.mod_eq_of_lt hlt]; omega), Nat.div_eq_of_lt hlt]
  · have hdeq : d = u := Nat.le_antisymm hdu hge
    subst hdeq
    rw [if_pos (Nat.mod_self d), Nat.div_self hu]

theorem ceilDiv_pos (d u : Nat) (hu : 0 < u) (hd : 0 < d) : 0 < ceilDiv d u := by
  have h1 : u ≤ d + u - 1 := by omega
  have := (Nat.one_le_div_iff hu).mpr h1
  simpa [ceilDiv] using this

/-- Claim C4 counterexample: at `T = 1200`, `init_len = 200`,
`up_fr = 500`, `args.up_fr = 1000`, the inner loop runs
`ceil(1000/500) = 2` iterations but the second iteration does not start
at `init_len + 1 * up_fr = 700`: the advance uses the global
`args.up_fr`, so it starts at the (clamped) index `1200`. -/
theorem innerLoop_advance_counterexample :
    0 < 1200 - 200 ∧ (innerSlices 1200 200 500 1000).length = 2 ∧
    ¬ advanceByParamUpFr 1200 200 500 1000 := by
  refine ⟨by decide, by decide, ?_⟩
  intro hclaim
  have h := hclaim 1 (by decide)
  simp only [innerSlices, List.get_eq_getElem, List.getElem_map, List.getElem_range] at h
  exact absurd h (by decide)

/-- Claim C4 (amended): for every mini-batch with `0 < T - init_len`, the
TBPTT inner loop runs exactly `ceil((T - init_len) / up_fr)` iterations,
iteration `i` starting at the (clamped) time index
`init_len + i * args.up_fr` — the advance uses the global `args.up_fr`,
not the `up_fr` parameter; when `T - init_len ≤ up_fr` the loop runs
exactly one (possibly shorter) iteration, and when moreover
`up_fr = args.up_fr` that single iteration processes samples
`[init_len : T)` for both output and target. -/
theorem innerLoop_iteration_structure (T initLen upFr argsUpFr : Nat)
    (hT : 0 < T - initLen) :
    (innerSlices T initLen upFr argsUpFr).length = ceilDiv (T - initLen) upFr ∧
    (∀ i, ∀ h : i < (innerSlices T initLen upFr argsUpFr).length,
      ((innerSlices T initLen upFr argsUpFr).get ⟨i, h⟩).outLo =
        min (initLen + i * argsUpFr) T) ∧
    (T - initLen ≤ upFr → (innerSlices T initLen upFr argsUpFr).length = 1) ∧
    (T - initLen ≤ upFr → upFr = argsUpFr →
      innerSlices T initLen upFr argsUpFr = [⟨initLen, T, initLen, T⟩]) := by
  have hlen : (innerSlices T initLen upFr argsUpFr).length =
      ceilDiv (T - initLen) upFr := by
    simp [innerSlices, innerStepCount]
  refine ⟨hlen, ?_, ?_, ?_⟩
  · intro i h
    simp [innerSlices]
  · intro hle
    rw [hlen, ceilDiv_eq_one (T - initLen) upFr hT hle]
  · intro hle hup
    have hc : innerStepCount T initLen upFr = 1 := ceilDiv_eq_one (T - initLen) upFr hT hle
    have h1 : initLen ≤ T := by omega
    have h2 : T ≤ initLen + upFr := by omega
    subst hup
    have hr1 : List.range 1 = [0] := rfl
    simp only [innerSlices, hc, hr1, List.map_cons, List.map_nil,
      Nat.zero_mul, Nat.add_zero]
    rw [Nat.min_eq_left h1, Nat.min_eq_right h2]

/-- Witness for the amended C4 at the spec scenario `T = 1200`,
`init_len = 200`, `up_fr = args.up_fr = 1000`: one iteration covering
samples `[200 : 1200)`. -/
theorem innerLoop_iteration_structure_witness :
    0 < 1200 - 200 ∧
    ((innerSlices 1200 200 1000 1000).length = ceilDiv (1200 - 200) 1000 ∧
      (∀ i, ∀ h : i < (innerSlices 1200 200 1000 1000).length,
        ((innerSlices 1200 200 1000 1000).get ⟨i, h⟩).outLo =
          min (200 + i * 1000) 1200) ∧
      (1200 - 200 ≤ 1000 → (innerSlices 1200 200 1000 1000).length = 1) ∧
      (1200 - 200 ≤ 1000 → 1000 = 1000 →
        innerSlices 1200 200 1000 1000 = [⟨200, 1200, 200, 1200⟩])) :=
  ⟨by decide, innerLoop_iteration_structure 1200 200 1000 1000 (by decide)⟩

/-- Claim C8: in the TBPTT inner loop of `train_epoch`, the target slice
and the start-index advance both use the global `args.up_fr`: iteration
`i` compares the output over
`[init_len + i*args.up_fr : init_len + i*args.up_fr + up_fr)` against the
target over
`[init_len + i*args.up_fr : init_len + i*args.up_fr + args.up_fr)` (both
clamped at `T`); the two slices coincide at every iteration when
`up_fr = args.up_fr`, and when `up_fr ≠ args.up_fr` (and the first
iteration is unclamped on both sides) already the first iteration's
output and target slices differ. -/
theorem innerLoop_target_uses_global (T initLen upFr argsUpFr : Nat)
    (hup : 0 < upFr) :
    (∀ i, ∀ h : i < (innerSlices T initLen upFr argsUpFr).length,
      ((innerSlices T initLen upFr argsUpFr).get ⟨i, h⟩).tgtLo =
          min (initLen + i * argsUpFr) T ∧
        ((innerSlices T initLen upFr argsUpFr).get ⟨i, h⟩).tgtHi =
          min (initLen + i * argsUpFr + argsUpFr) T) ∧
    (upFr = argsUpFr → ∀ i, ∀ h : i < (innerSlices T initLen upFr argsUpFr).length,
      ((innerSlices T initLen upFr argsUpFr).get ⟨i, h⟩).outLo =
          ((innerSlices T initLen upFr argsUpFr).get ⟨i, h⟩).tgtLo ∧
        ((innerSlices T initLen upFr argsUpFr).get ⟨i, h⟩).outHi =
          ((innerSlices T initLen upFr argsUpFr).get ⟨i, h⟩).tgtHi) ∧
    (upFr ≠ argsUpFr → initLen + upFr ≤ T → initLen + argsUpFr ≤ T →
      ∃ h0 : 0 < (innerSlices T initLen upFr argsUpFr).length,
        ((innerSlices T initLen upFr argsUpFr).get ⟨0, h0⟩).outHi ≠
          ((innerSlices T initLen upFr argsUpFr).get ⟨0, h0⟩).tgtHi) := by
  refine ⟨?_, ?_, ?_⟩
  · intro i h
    constructor <;> simp [innerSlices]
  · intro hup i h
    subst hup
    constructor <;> simp [innerSlices]
  · intro hne hclamp1 hclamp2
    have hd : 0 < T - initLen := by omega
    have h0 : 0 < (innerSlices T initLen upFr argsUpFr).length := by
      simp only [innerSlices, List.length_map, List.length_range, innerStepCount]
      exact ceilDiv_pos (T - initLen) upFr hup hd
    refine ⟨h0, ?_⟩
    simp only [innerSlices, List.get_eq_getElem, List.getElem_map, List.getElem_range,
      Nat.zero_mul, Nat.add_zero]
    rw [Nat.min_eq_left hclamp1, Nat.min_eq_left hclamp2]
    omega

/-- Witness for C8 at `T = 1200`, `init_len = 200`, `up_fr = 500`,
`args.up_fr = 1000`. -/
theorem innerLoop_target_uses_global_witness :
    0 < 500 ∧
    ((∀ i, ∀ h : i < (innerSlices 1200 200 500 1000).length,
      ((innerSlices 1200 200 500 1000).get ⟨i, h⟩).tgtLo =
          min (200 + i * 1000) 1200 ∧
        ((innerSlices 1200 200 500 1000).get ⟨i, h⟩).tgtHi =
          min (200 + i * 1000 + 1000) 1200) ∧
    (500 = 1000 → ∀ i, ∀ h : i < (innerSlices 1200 200 500 1000).length,
      ((innerSlices 1200 200 500 1000).get ⟨i, h⟩).outLo =
          ((innerSlices 1200 200 500 1000).get ⟨i, h⟩).tgtLo ∧
        ((innerSlices 1200 200 500 1000).get ⟨i, h⟩).outHi =
          ((innerSlices 1200 200 500 1000).get ⟨i, h⟩).tgtHi) ∧
    (500 ≠ 1000 → 200 + 500 ≤ 1200 → 200 + 1000 ≤ 1200 →
      ∃ h0 : 0 < (innerSlices 1200 200 500 1000).length,
        ((innerSlices 1200 200 500 1000).get ⟨0, h0⟩).outHi ≠
          ((innerSlices 1200 200 500 1000).get ⟨0, h0⟩).tgtHi)) :=
  ⟨by decide, innerLoop_target_uses_global 1200 200 500 1000 (by decide)⟩

/-- The validation bookkeeping held in `network.training_info`:
the list of per-validation-event losses and the best validation loss.
`best_val_loss` is `float(inf)` for a fresh model, modelled as `none`. -/
structure ValState where
  validationLosses : List ℚ
  bestValLoss : Option ℚ
deriving DecidableEq

/-- The validation bookkeeping of a freshly created model:
empty loss history and `best_val_loss = inf`. -/
def freshValState : ValState := ⟨[], none⟩

/-- The comparison `val_loss < training_info[best_val_loss]` (source
line 212), where `none` models `float(inf)`. -/
def ltBestB (v : ℚ) : Option ℚ → Bool
  | none => true
  | some b => decide (v < b)

/-- Embedding of one validation event (source lines 208-218): the new
loss is appended to the history (line 208), and if it is strictly below
the stored best loss, the best loss is replaced (line 213) and the best
checkpoint, `bestvloss.txt` and `best_val_out.wav` are written (lines
214-218) — the returned `Bool` records whether those writes happened. -/
def validationEvent (s : ValState) (valLoss : ℚ) : ValState × Bool :=
  if ltBestB valLoss s.bestValLoss then
    (⟨s.validationLosses ++ [valLoss], some valLoss⟩, true)
  else
    (⟨s.validationLosses ++ [valLoss], s.bestValLoss⟩, false)

/-- The stored best validation loss is the minimum of the recorded
validation losses (`none`, i.e. infinity, exactly when none were
recorded).  This holds for a fresh model and is preserved by every
validation event. -/
def bestIsMin (s : ValState) : Prop :=
  match s.bestValLoss with
  | none => s.validationLosses = []
  | some b => b ∈ s.validationLosses ∧ ∀ x ∈ s.validationLosses, b ≤ x

/-- Claim C5: on each validation event the best checkpoint (with the
best-loss text file and best-validation-output audio) is written iff the
new validation loss is strictly below every previously recorded
validation loss — equivalently strictly below the stored best loss,
which is infinity (`none`) for a fresh model; when written the stored
best loss becomes the new loss, otherwise it is unchanged, the new loss
is appended to the history either way, and the stored-best-is-minimum
invariant is preserved. -/
theorem validation_best_update (s : ValState) (v : ℚ) (hinv : bestIsMin s) :
    ((validationEvent s v).2 = true ↔ ∀ x ∈ s.validationLosses, v < x) ∧
    ((validationEvent s v).2 = true ↔ ltBestB v s.bestValLoss = true) ∧
    ((validationEvent s v).2 = true → (validationEvent s v).1.bestValLoss = some v) ∧
    ((validationEvent s v).2 = false → (validationEvent s v).1.bestValLoss = s.bestValLoss) ∧
    (validationEvent s v).1.validationLosses = s.validationLosses ++ [v] ∧
    bestIsMin (validationEvent s v).1 ∧
    freshValState.bestValLoss = none := by
  obtain ⟨losses, best⟩ := s
  cases best with
  | none =>
    have hnil : losses = [] := hinv
    subst hnil
    simp [validationEvent, ltBestB, bestIsMin, freshValState]
  | some b =>
    obtain ⟨hmem, hle⟩ := hinv
    by_cases hvb : v < b
    · have hbt : ltBestB v (some b) = true := by
        simp [ltBestB, hvb]
      refine ⟨?_, ?_, ?_, ?_, ?_, ?_, rfl⟩
      · simp only [validationEvent, hbt, ite_true, true_iff, iff_true]
        intro x hx
        exact lt_of_lt_of_le hvb (hle x hx)
      · simp [validationEvent, hbt]
      · intro _
        simp [validationEvent, hbt]
      · intro hfalse
        simp [validationEvent, hbt] at hfalse
      · simp [validationEvent, hbt]
      · simp only [validationEvent, hbt, ite_true, bestIsMin]
        refine ⟨List.mem_append_right losses (List.mem_singleton_self v), ?_⟩
        intro x hx
        rcases List.mem_append.mp hx with hx | hx
        · exact le_of_lt (lt_of_lt_of_le hvb (hle x hx))
        · rw [List.mem_singleton.mp hx]
    · have hbf : ltBestB v (some b) = false := by
        simp [ltBestB, hvb]
      refine ⟨?_, ?_, ?_, ?_, ?_, ?_, rfl⟩
      · simp only [validationEvent, hbf, Bool.false_eq_true, ite_false, false_iff]
        intro hall
        exact hvb (hall b hmem)
      · simp [validationEvent, hbf]
      · intro htrue
        simp [validationEvent, hbf] at htrue
      · intro _
        simp [validationEvent, hbf]
      · simp [validationEvent, hbf]
      · simp only [validationEvent, hbf, Bool.false_eq_true, ite_false, bestIsMin]
        refine ⟨List.mem_append_left [v] hmem, ?_⟩
        intro x hx
        rcases List.mem_append.mp hx with hx | hx
        · exact hle x hx
        · rw [List.mem_singleton.mp hx]
          exact le_of_not_lt hvb

/-- Witness for C5: history `[2, 3]` with stored best `2`; a new loss `1`
triggers the best-checkpoint write and updates the best loss to `1`. -/
theorem validation_best_update_witness :
    bestIsMin ⟨[2, 3], some 2⟩ ∧
    (((validationEvent ⟨[2, 3], some 2⟩ 1).2 = true ↔
        ∀ x ∈ ([2, 3] : List ℚ), (1 : ℚ) < x) ∧
      ((validationEvent ⟨[2, 3], some 2⟩ 1).2 = true ↔ ltBestB 1 (some 2) = true) ∧
      ((validationEvent ⟨[2, 3], some 2⟩ 1).2 = true →
        (validationEvent ⟨[2, 3], some 2⟩ 1).1.bestValLoss = some 1) ∧
      ((validationEvent ⟨[2, 3], some 2⟩ 1).2 = false →
        (validationEvent ⟨[2, 3], some 2⟩ 1).1.bestValLoss = some 2) ∧
      (validationEvent ⟨[2, 3], some 2⟩ 1).1.validationLosses = [2, 3] ++ [1] ∧
      bestIsMin (validationEvent ⟨[2, 3], some 2⟩ 1).1 ∧
      freshValState.bestValLoss = none) :=
  ⟨by norm_num [bestIsMin],
    validation_best_update ⟨[2, 3], some 2⟩ 1 (by norm_num [bestIsMin])⟩

/-- The training epoch loop range (source line 183): Python
`range(training_info[current_epoch] + 1, args.epochs + 1)`. -/
def epochLoop (currentEpoch maxEpochs : Nat) : List Nat :=
  List.range' (currentEpoch + 1) (maxEpochs + 1 - (currentEpoch + 1))

/-- The cumulative-time offset computed at startup (source line 179):
`init_time = time.time() - start_time + training_info[total_time] * 3600`,
with `elapsedAtInit = time.time() - start_time`. -/
def initTimeOffset (elapsedAtInit totalTimeHours : ℚ) : ℚ :=
  elapsedAtInit + totalTimeHours * 3600

/-- The per-epoch cumulative-time update (source line 228):
`training_info[total_time] = (init_time + time.time() - start_time) / 3600`,
with `elapsedNow = time.time() - start_time`. -/
def reportedTotalTime (iTime elapsedNow : ℚ) : ℚ := (iTime + elapsedNow) / 3600

/-- Claim C6: when a checkpoint recording epoch `E` is loaded and
`E < args.epochs`, the epoch loop starts at `E + 1`, ends at
`args.epochs` inclusive (running `args.epochs - E` epochs), and because
the checkpointed cumulative time is carried forward through `init_time`,
every reported cumulative elapsed time is at least the checkpointed
value whenever the measured elapsed durations are nonnegative. -/
theorem resume_epoch_and_time (E maxE : Nat) (e1 e2 oldTotal : ℚ)
    (hE : E < maxE) (h1 : 0 ≤ e1) (h2 : 0 ≤ e2) :
    (epochLoop E maxE).head? = some (E + 1) ∧
    (epochLoop E maxE).getLast? = some maxE ∧
    (epochLoop E maxE).length = maxE - E ∧
    oldTotal ≤ reportedTotalTime (initTimeOffset e1 oldTotal) e2 := by
  have hlen : maxE + 1 - (E + 1) = maxE - E := by omega
  obtain ⟨n, hn⟩ : ∃ n, maxE - E = n + 1 := ⟨maxE - E - 1, by omega⟩
  refine ⟨?_, ?_, ?_, ?_⟩
  · rw [epochLoop, hlen, hn]
    rfl
  · rw [epochLoop, hlen, hn, List.range'_concat, List.getLast?_concat]
    have hsum : E + 1 + 1 * n = maxE := by omega
    rw [hsum]
  · rw [epochLoop, hlen, List.length_range']
  · rw [reportedTotalTime, initTimeOffset, le_div_iff₀ (by norm_num : (0 : ℚ) < 3600)]
    linarith

/-- Witness for C6: resuming at epoch 4 with max epoch 6 runs epochs
`[5, 6]`; carried time 5 hours plus elapsed `1` and `2` seconds reports
at least 5 hours. -/
theorem resume_epoch_and_time_witness :
    4 < 6 ∧ (0 : ℚ) ≤ 1 ∧ (0 : ℚ) ≤ 2 ∧
    ((epochLoop 4 6).head? = some (4 + 1) ∧
      (epochLoop 4 6).getLast? = some 6 ∧
      (epochLoop 4 6).length = 6 - 4 ∧
      (5 : ℚ) ≤ reportedTotalTime (initTimeOffset 1 5) 2) :=
  ⟨by norm_num, by norm_num, by norm_num,
    resume_epoch_and_time 4 6 1 2 5 (by norm_num) (by norm_num) (by norm_num)⟩

/-- Abstract identities for the tensors alive in the final
test-evaluation block (source lines 231-247): the `val_output` left over
from the last validation event, the final-model test output computed at
line 231, and the best-checkpoint test output computed at line 241. -/
inductive TensorSrc where
  | valOutput (epoch : Nat)
  | finalTestOutput
  | bestTestOutput
deriving DecidableEq

/-- One WAV-file write `write(path, fs, tensor)`. -/
structure WavWrite where
  file : String
  src : TensorSrc
deriving DecidableEq

/-- Embedding of the WAV writes of the final test-evaluation block
(source lines 231-247).  After the epoch loop, `test_output` is computed
from the final model (line 231), but the `write` at lines 236-237
renders `val_output` — the variable left over from the last validation
event, unbound (a `NameError`) if no validation epoch ever ran — into
`test_out_final.wav`.  The best checkpoint is then reloaded,
`test_output` is recomputed (line 241), and the `write` at lines 246-247
renders it into `test_out_bestv.wav`.  The parameter `finalOut` is the
freshly computed final-model test output, which the block computes but
never renders. -/
def finalEvalWavWrites (valOut : Option TensorSrc) (finalOut bestOut : TensorSrc) :
    Except String (List WavWrite) :=
  match valOut, finalOut with
  | none, _ => Except.error "NameError: name val_output is not defined"
  | some v, _ => Except.ok [⟨"test_out_final.wav", v⟩, ⟨"test_out_bestv.wav", bestOut⟩]

/-- Claim C7 (code bug): `test_out_bestv.wav` is rendered from the
best-checkpoint test output as the claim states, but `test_out_final.wav`
is rendered from the stale `val_output` of the last validation event
rather than from the freshly computed final test output, and the write
raises a `NameError` when no validation epoch ever ran. -/
theorem finalEval_writes_stale_valOutput :
    finalEvalWavWrites (some (TensorSrc.valOutput 4)) TensorSrc.finalTestOutput
        TensorSrc.bestTestOutput =
      Except.ok [⟨"test_out_final.wav", TensorSrc.valOutput 4⟩,
        ⟨"test_out_bestv.wav", TensorSrc.bestTestOutput⟩] ∧
    TensorSrc.valOutput 4 ≠ TensorSrc.finalTestOutput ∧
    finalEvalWavWrites none TensorSrc.finalTestOutput TensorSrc.bestTestOutput =
      Except.error "NameError: name val_output is not defined" :=
  ⟨rfl, by decide, rfl⟩

end DistModelRecnet
